import Mathlib

/-!
Verification of the TickerGenie core pipeline.

This file embeds the two non-trivial components of the repository in Lean:

* the ticker extractor (`extractTickers` / `isValidTicker` from
  `backend/lib/tickerExtractor.ts`, the 1–5-letter version whose behaviour the
  repository's own test suite pins down), and
* the rating aggregator (`fetchTickerRating`, `fetchMultipleRatings`,
  `getTopPicks` from the Yahoo-Finance service module).

JavaScript numbers are modelled as rationals, nullable values as `Option`,
and the asynchronous provider as a pure function from tickers to outcomes.
The regex `\b([A-Z]{1,5})\b` with the `g` flag is modelled by an explicit
scanner over the character list, and its output is characterised against a
declarative description of word-boundary-delimited uppercase runs.
-/

namespace TickerGenie

/-! ### Character classes

`isUpperCh` models `[A-Z]`; `isWordCh` models the JavaScript regex word
class `\w = [A-Za-z0-9_]`, which is what `\b` boundaries are defined from. -/

def isUpperCh (c : Char) : Bool := 'A' ≤ c && c ≤ 'Z'

def isWordCh (c : Char) : Bool :=
  isUpperCh c || ('a' ≤ c && c ≤ 'z') || ('0' ≤ c && c ≤ '9') || c == '_'

/-! ### The two static dictionaries (verbatim from the source) -/

/-- `EXCLUDED_WORDS` from `tickerExtractor.ts` (order and duplicates kept;
only membership matters, as in the source's `Set`). -/
def EXCLUDED_WORDS : List String := [
  "THE", "AND", "FOR", "ARE", "BUT", "NOT", "YOU", "ALL", "CAN", "HAD",
  "HER", "WAS", "ONE", "OUR", "OUT", "HAS", "HIS", "HOW", "ITS", "LET",
  "MAY", "NEW", "NOW", "OLD", "SEE", "WAY", "WHO", "BOY", "DID", "GET",
  "HIM", "HOT", "LOW", "OWN", "SAY", "SHE", "TOO", "USE", "TOP", "HIGH",
  "JUST", "LIKE", "MAKE", "OVER", "SUCH", "TAKE", "INTO", "YEAR", "YOUR",
  "GOOD", "SOME", "THEM", "TIME", "VERY", "WHEN", "COME", "MADE", "FIND",
  "MORE", "LONG", "HERE", "MANY", "THAN", "MOST", "NEXT", "ONLY", "WHAT",
  "WILL", "WITH", "HAVE", "THIS", "THAT", "FROM", "THEY", "BEEN", "CALL",
  "EACH", "LIVE", "MUCH", "NEED", "PART", "SURE", "TELL", "WELL", "BACK",
  "BEST", "BOTH", "DOWN", "EVEN", "GIVE", "LAST", "LOOK", "WANT", "WORK",
  "A", "I",
  "ABOUT", "AFTER", "AGAIN", "BELOW", "COULD", "EVERY", "FIRST", "FOUND",
  "GREAT", "HOUSE", "LARGE", "LEARN", "NEVER", "OTHER", "PLACE", "PLANT",
  "POINT", "RIGHT", "SMALL", "SOUND", "SPELL", "STILL", "STUDY", "THEIR",
  "THERE", "THESE", "THING", "THINK", "THREE", "WATER", "WHERE", "WHICH",
  "WHILE", "WORLD", "WOULD", "WRITE", "BEING", "UNDER", "STOCK", "MONEY",
  "PRICE", "SHARE", "VALUE", "TRADE", "MAYBE", "GOING", "TODAY", "VIDEO",
  "ETF", "IPO", "CEO", "CFO", "COO", "CTO", "GDP", "YTD", "QOQ", "MOM",
  "USD", "EUR", "GBP", "JPY", "CAD", "AUD", "CHF", "CNY", "HKD", "SGD",
  "ROI", "YOY", "EPS", "PE", "PB", "PS", "NAV", "AUM", "EBIT", "EBITDA",
  "SEC", "NYSE", "AMEX", "OTC", "ADR", "REIT", "FED", "ROE", "EV",
  "LIKE", "GUYS", "OKAY", "LETS", "LINK", "BELOW", "CHECK", "HELLO", "THANKS"]

/-- `KNOWN_TICKERS` from `tickerExtractor.ts`. -/
def KNOWN_TICKERS : List String := [
  "AAPL", "MSFT", "GOOG", "GOOGL", "AMZN", "META", "NVDA", "TSLA", "AMD", "INTC",
  "JPM", "BAC", "WFC", "GS", "MS", "C", "BRK", "BRKB", "V", "MA",
  "JNJ", "UNH", "PFE", "MRK", "ABBV", "TMO", "ABT", "LLY", "BMY", "AMGN",
  "WMT", "HD", "MCD", "NKE", "SBUX", "TGT", "COST", "LOW", "TJX", "DG",
  "DIS", "NFLX", "CRM", "PYPL", "SQ", "SHOP", "UBER", "LYFT", "SNAP", "TWTR",
  "PLTR", "COIN", "RIVN", "LCID", "NIO", "XPEV", "LI", "BABA", "JD", "PDD"]

/-! ### The regex scanner

`text.match(/\b([A-Z]{1,5})\b/g)` returns, in order, every maximal run of
uppercase letters of length 1–5 whose two ends sit on `\b` word boundaries,
i.e. that is not adjacent to any further word character.  `scanAux` walks
the text once: `runAcc` is the uppercase run read so far and `startOK`
records whether the character just before that run was a non-word character
(or the start of the text), which is exactly the leading `\b`.  When the
run ends (at a non-uppercase character or at the end of the text)
`finishRun` emits it if it is non-empty, at most 5 long, and both
boundaries hold. -/

/-- Close off the current uppercase run: emit it iff the run is a match of
the regex (non-empty, length ≤ 5, leading boundary `startOK`, trailing
boundary `rightOK`). -/
def finishRun (startOK : Bool) (runAcc : List Char) (rightOK : Bool) : List (List Char) :=
  if startOK && !runAcc.isEmpty && decide (runAcc.length ≤ 5) && rightOK then [runAcc] else []

/-- One pass of the global regex match over the remaining text. -/
def scanAux : Bool → List Char → List Char → List (List Char)
  | startOK, runAcc, [] => finishRun startOK runAcc true
  | startOK, runAcc, c :: cs =>
    if isUpperCh c then
      scanAux startOK (runAcc ++ [c]) cs
    else
      finishRun startOK runAcc (!isWordCh c) ++ scanAux (!isWordCh c) [] cs

/-- All matches of `/\b([A-Z]{1,5})\b/g` in a character list, in order. -/
def tickerScan (l : List Char) : List (List Char) :=
  scanAux true [] l

/-! ### The extractor and validator (from `tickerExtractor.ts`) -/

/-- The body of the filtering loop of `extractTickers`: known tickers are
always added, excluded words skipped, and otherwise a 2–5-character match is
added. -/
def acceptTicker (m : String) : Bool :=
  if m ∈ KNOWN_TICKERS then true
  else if m ∈ EXCLUDED_WORDS then false
  else decide (2 ≤ m.length) && decide (m.length ≤ 5)

/-- `extractTickers`: match the global regex, filter/dedupe via the set, and
return the members sorted ascending (`Array.from(tickers).sort()`). -/
def extractTickers (text : String) : List String :=
  (((tickerScan text.data).map String.mk).filter acceptTicker).dedup.insertionSort (· ≤ ·)

/-- The shape test `/^[A-Z]{1,5}$/` of `isValidTicker`. -/
def tickerShape (s : String) : Bool :=
  decide (1 ≤ s.length) && decide (s.length ≤ 5) && s.data.all isUpperCh

/-- `isValidTicker`, with the source's exact check order: shape, then
known-ticker override, then the minimum length, then the exclusion set. -/
def isValidTicker (t : String) : Bool :=
  if !tickerShape t then false
  else if t ∈ KNOWN_TICKERS then true
  else if t.length < 2 then false
  else if t ∈ EXCLUDED_WORDS then false
  else true

/-! ### Rating aggregator data model (Yahoo-Finance service module)

Numbers are rationals; every `field?` of the TypeScript interfaces becomes an
`Option`.  Optional-chaining cascades such as `price?.regularMarketPrice?.raw`
are collapsed into a single `Option` (absent at any level means absent). -/

inductive RecommendationTrend where
  | strongBuy | buy | hold | sell | strongSell | unknown
deriving DecidableEq, Repr

/-- The `price` module of a `YahooQuoteResponse` result. -/
structure PriceModule where
  shortName : Option String
  regularMarketPrice : Option ℚ
deriving DecidableEq, Repr

/-- The `financialData` module of a `YahooQuoteResponse` result. -/
structure FinancialDataModule where
  targetMeanPrice : Option ℚ
  recommendationKey : Option String
  numberOfAnalystOpinions : Option ℚ
deriving DecidableEq, Repr

/-- `quoteSummary.result[0]` of a successful provider response. -/
structure QuoteResult where
  price : Option PriceModule
  financialData : Option FinancialDataModule
deriving DecidableEq, Repr

/-- Outcome of one provider call, as distinguished by `fetchTickerRating`:
a non-OK HTTP response, a thrown exception (network/JSON failure), a missing
`quoteSummary.result[0]`, or a usable quote. -/
inductive ProviderResponse where
  | httpError
  | thrown
  | emptyResult
  | success (q : QuoteResult)
deriving DecidableEq

/-- The `AnalystRating` record interface. -/
structure AnalystRating where
  ticker : String
  companyName : String
  currentPrice : Option ℚ
  targetPrice : Option ℚ
  rating : String
  numberOfAnalysts : ℚ
  recommendationTrend : RecommendationTrend
  upside : Option ℚ
deriving DecidableEq, Repr

/-- `financialData?.recommendationKey || 'unknown'` — JavaScript `||` treats
both a missing key and the empty string as falsy. -/
def recKey (fd : Option FinancialDataModule) : String :=
  match fd.bind FinancialDataModule.recommendationKey with
  | none => "unknown"
  | some s => if s = "" then "unknown" else s

/-- `ratingMap[recommendationKey] || 'Unknown'`. -/
def ratingLabel (key : String) : String :=
  if key = "strong_buy" then "Strong Buy"
  else if key = "buy" then "Buy"
  else if key = "hold" then "Hold"
  else if key = "underperform" then "Sell"
  else if key = "sell" then "Strong Sell"
  else "Unknown"

/-- `trendMap[recommendationKey] || 'unknown'`. -/
def trendOf (key : String) : RecommendationTrend :=
  if key = "strong_buy" then .strongBuy
  else if key = "buy" then .buy
  else if key = "hold" then .hold
  else if key = "underperform" then .sell
  else if key = "sell" then .strongSell
  else .unknown

/-- `price?.shortName || ticker` (empty display names are falsy too). -/
def companyNameOf (p : Option PriceModule) (ticker : String) : String :=
  match p.bind PriceModule.shortName with
  | none => ticker
  | some s => if s = "" then ticker else s

/-- `fetchTickerRating`: every failure outcome becomes `none`; on success the
record is assembled exactly as in the source, with the upside guarded by the
JavaScript truthiness test `if (currentPrice && targetPrice)` (so a missing
*or zero* price suppresses the division). -/
def fetchTickerRating (provider : String → ProviderResponse) (ticker : String) :
    Option AnalystRating :=
  match provider ticker with
  | .httpError => none
  | .thrown => none
  | .emptyResult => none
  | .success q =>
    let currentPrice := q.price.bind PriceModule.regularMarketPrice
    let targetPrice := q.financialData.bind FinancialDataModule.targetMeanPrice
    let key := recKey q.financialData
    let upside : Option ℚ :=
      match currentPrice, targetPrice with
      | some c, some t => if c ≠ 0 ∧ t ≠ 0 then some ((t - c) / c * 100) else none
      | _, _ => none
    some {
      ticker := ticker
      companyName := companyNameOf q.price ticker
      currentPrice := currentPrice
      targetPrice := targetPrice
      rating := ratingLabel key
      numberOfAnalysts := (q.financialData.bind FinancialDataModule.numberOfAnalystOpinions).getD 0
      recommendationTrend := trendOf key
      upside := upside }

/-- The batch loop `for (let i = 0; i < tickers.length; i += batchSize)` with
`tickers.slice(i, i + batchSize)`, as a chunking of the input list into
consecutive groups of five. -/
def chunks5 : List String → List (List String)
  | [] => []
  | [a] => [[a]]
  | [a, b] => [[a, b]]
  | [a, b, c] => [[a, b, c]]
  | [a, b, c, d] => [[a, b, c, d]]
  | a :: b :: c :: d :: e :: rest => [a, b, c, d, e] :: chunks5 rest

/-- `fetchMultipleRatings`: per batch, map the provider over the batch
(`Promise.all` keeps the batch order) and append the non-null results to the
accumulator.  The inter-batch 200 ms delay has no effect on the value. -/
def fetchMultipleRatings (provider : String → ProviderResponse) (tickers : List String) :
    List AnalystRating :=
  (chunks5 tickers).foldl
    (fun acc batch => acc ++ (batch.map (fetchTickerRating provider)).filterMap id) []

/-! ### Scoring and ranking (`getTopPicks`) -/

/-- The key strings under which the scoring table is indexed
(`ratingScores[rating.recommendationTrend]`). -/
def trendKeyStr : RecommendationTrend → String
  | .strongBuy => "strongBuy"
  | .buy => "buy"
  | .hold => "hold"
  | .sell => "sell"
  | .strongSell => "strongSell"
  | .unknown => "unknown"

/-- The `ratingScores` record literal of `getTopPicks`. -/
def ratingScores (k : String) : Option ℚ :=
  if k = "strongBuy" then some 5
  else if k = "buy" then some 4
  else if k = "hold" then some 3
  else if k = "sell" then some 2
  else if k = "strongSell" then some 1
  else if k = "unknown" then some 0
  else none

/-- The score accumulated by `getTopPicks` for one record: trend weight × 20,
plus the upside capped at 50 when present, plus the analyst count capped at
10 times 2. -/
def scoreOf (r : AnalystRating) : ℚ :=
  ((ratingScores (trendKeyStr r.recommendationTrend)).getD 0) * 20
    + (match r.upside with
        | some u => min u 50
        | none => 0)
    + min r.numberOfAnalysts 10 * 2

/-- The comparator `(a, b) => b.score - a.score` as an ordering on the
`{rating, score}` pairs: `a` may precede `b` iff `b`'s score is at most
`a`'s. -/
def scoreRel (a b : AnalystRating × ℚ) : Prop := b.2 ≤ a.2

instance : DecidableRel scoreRel := fun a b => inferInstanceAs (Decidable (b.2 ≤ a.2))

instance : IsTotal (AnalystRating × ℚ) scoreRel := ⟨fun a b => le_total b.2 a.2⟩

instance : IsTrans (AnalystRating × ℚ) scoreRel := ⟨fun _ _ _ hab hbc => le_trans hbc hab⟩

/-- `getTopPicks`: score every record, sort descending by score (JavaScript's
`Array.prototype.sort` is stable), take the first `count` (default 5), and
project the records back out. -/
def getTopPicks (ratings : List AnalystRating) (count : Nat := 5) : List AnalystRating :=
  ((List.insertionSort scoreRel (ratings.map (fun r => (r, scoreOf r)))).take count).map Prod.fst

/-! ### Spec-side definitions

These follow the specification's words and are compared against the
definitions above, which follow the source. -/

/-- The trend weight table as the specification states it:
strongBuy=5, buy=4, hold=3, sell=2, strongSell=1, unknown=0. -/
def trendWeight : RecommendationTrend → ℚ
  | .strongBuy => 5
  | .buy => 4
  | .hold => 3
  | .sell => 2
  | .strongSell => 1
  | .unknown => 0

/-! ### C3: the score formula -/

/-- **C3.** The score computed by `getTopPicks` for a rating record equals
`trend_weight × 20 + clamped_upside + clamped_coverage`, where the trend
weight is the table strongBuy=5, buy=4, hold=3, sell=2, strongSell=1,
unknown=0, the upside is clamped to at most 50 (no lower clamp) and
contributes 0 when absent, and the coverage is the analyst count clamped to
at most 10 and doubled. -/
theorem score_formula (r : AnalystRating) :
    scoreOf r = trendWeight r.recommendationTrend * 20
      + (match r.upside with
          | some u => min u 50
          | none => 0)
      + min r.numberOfAnalysts 10 * 2 := by
  cases h : r.recommendationTrend <;>
    simp [scoreOf, trendWeight, trendKeyStr, ratingScores, h]

/-! ### C9: rejections of `isValidTicker` -/

/-- **C9.** `isValidTicker` returns `false` for every string that is not a
run of 1–5 uppercase ASCII letters, and for every bare single uppercase
letter that is not a member of the Known-Ticker Set. -/
theorem isValidTicker_rejects (s : String) :
    (tickerShape s = false → isValidTicker s = false)
    ∧ (s.length = 1 → s ∉ KNOWN_TICKERS → isValidTicker s = false) := by
  constructor
  · intro h
    simp [isValidTicker, h]
  · intro h1 h2
    by_cases hs : tickerShape s <;> simp [isValidTicker, hs, h1, h2]

/-- Witness for C9 at the spec's own examples: `"TOOLONG"` (too long),
`"aapl"` (lowercase), `"AA1"` (digit) and the unknown single letter
`"B"`. -/
theorem isValidTicker_rejects_witness :
    isValidTicker "TOOLONG" = false ∧ isValidTicker "aapl" = false
    ∧ isValidTicker "AA1" = false ∧ isValidTicker "B" = false :=
  ⟨(isValidTicker_rejects "TOOLONG").1 (by decide),
   (isValidTicker_rejects "aapl").1 (by decide),
   (isValidTicker_rejects "AA1").1 (by decide),
   (isValidTicker_rejects "B").2 (by decide) (by decide)⟩

/-! ### C2 / C10: the upside computation -/

/-- Every record produced by `fetchTickerRating` carries the input ticker,
and its `upside` is determined from its own price fields by the guarded
formula of the source. -/
theorem fetchTickerRating_success (p : String → ProviderResponse) (t : String)
    (r : AnalystRating) (h : fetchTickerRating p t = some r) :
    r.ticker = t ∧
    r.upside = (match r.currentPrice, r.targetPrice with
      | some c, some tp => if c ≠ 0 ∧ tp ≠ 0 then some ((tp - c) / c * 100) else none
      | _, _ => none) := by
  unfold fetchTickerRating at h
  cases hp : p t <;> rw [hp] at h
  case httpError => exact absurd h (by simp)
  case thrown => exact absurd h (by simp)
  case emptyResult => exact absurd h (by simp)
  case success q =>
    cases Option.some.inj h
    exact ⟨rfl, rfl⟩

/-- Shared consequence of the truthiness guard: a present-but-zero price
yields an absent upside, and a present upside certifies nonzero prices. -/
theorem upside_guard_aux (p : String → ProviderResponse) (t : String)
    (r : AnalystRating) (h : fetchTickerRating p t = some r) :
    (r.currentPrice = some 0 ∨ r.targetPrice = some 0 → r.upside = none)
    ∧ (∀ u, r.upside = some u →
        ∃ c tp, r.currentPrice = some c ∧ r.targetPrice = some tp ∧ c ≠ 0 ∧ tp ≠ 0
          ∧ u = (tp - c) / c * 100) := by
  have hu := (fetchTickerRating_success p t r h).2
  rcases hc : r.currentPrice with _ | c <;> rcases ht : r.targetPrice with _ | tp <;>
    rw [hc, ht] at hu
  · exact ⟨fun _ => hu, fun u hup => absurd (hu ▸ hup) (by simp)⟩
  · exact ⟨fun _ => hu, fun u hup => absurd (hu ▸ hup) (by simp)⟩
  · exact ⟨fun _ => hu, fun u hup => absurd (hu ▸ hup) (by simp)⟩
  · dsimp only at hu
    by_cases hcond : c ≠ 0 ∧ tp ≠ 0
    · rw [if_pos hcond] at hu
      constructor
      · rintro (h0 | h0)
        · exact absurd (Option.some.inj h0) hcond.1
        · exact absurd (Option.some.inj h0) hcond.2
      · intro u hup
        rw [hu] at hup
        exact ⟨c, tp, rfl, rfl, hcond.1, hcond.2, (Option.some.inj hup).symm⟩
    · rw [if_neg hcond] at hu
      exact ⟨fun _ => hu, fun u hup => absurd (hu ▸ hup) (by simp)⟩

/-- **C10.** The upside computation never divides by zero: a present price
equal to 0 is treated like an absent one (the `upside` is `null`), and a
present upside can only arise from present, nonzero prices via the formula —
so the division is only performed with a nonzero `currentPrice`. -/
theorem upside_zero_guard (p : String → ProviderResponse) (t : String)
    (r : AnalystRating) (h : fetchTickerRating p t = some r) :
    (r.currentPrice = some 0 ∨ r.targetPrice = some 0 → r.upside = none)
    ∧ (∀ u, r.upside = some u →
        ∃ c tp, r.currentPrice = some c ∧ r.targetPrice = some tp ∧ c ≠ 0 ∧ tp ≠ 0
          ∧ u = (tp - c) / c * 100) :=
  upside_guard_aux p t r h

/-- A provider response whose target price is present but zero. -/
def zeroTargetQuote : QuoteResult :=
  ⟨some ⟨some "Zero Target Co", some 5⟩, some ⟨some 0, some "hold", some 2⟩⟩

/-- The record `fetchTickerRating` builds from `zeroTargetQuote`. -/
def zeroTargetRecord : AnalystRating :=
  ⟨"ZT", "Zero Target Co", some 5, some 0, "Hold", 2, .hold, none⟩

theorem zeroTargetRecord_fetch :
    fetchTickerRating (fun _ => ProviderResponse.success zeroTargetQuote) "ZT"
      = some zeroTargetRecord := rfl

/-- **C2 counterexample.** A record constructed by `fetchTickerRating` whose
`currentPrice` (5) and `targetPrice` (0) are both present (non-absent), yet
whose `upside` is absent rather than `(0 − 5) / 5 × 100 = −100`: the
JavaScript truthiness guard treats a present zero price as missing. -/
theorem upside_formula_cex :
    fetchTickerRating (fun _ => ProviderResponse.success zeroTargetQuote) "ZT"
        = some zeroTargetRecord
    ∧ zeroTargetRecord.currentPrice = some 5
    ∧ zeroTargetRecord.targetPrice = some 0
    ∧ zeroTargetRecord.upside = none
    ∧ zeroTargetRecord.upside ≠ some ((0 - 5) / 5 * 100) :=
  ⟨zeroTargetRecord_fetch, rfl, rfl, rfl, by simp [zeroTargetRecord]⟩

/-- **C2 (amended).** For every record constructed by `fetchTickerRating`,
`upside = (target − current) / current × 100` whenever both prices are
present *and nonzero*, and `upside` is absent whenever either price is
absent *or equal to zero*. -/
theorem upside_formula (p : String → ProviderResponse) (t : String)
    (r : AnalystRating) (h : fetchTickerRating p t = some r) :
    (∀ c tp, r.currentPrice = some c → r.targetPrice = some tp → c ≠ 0 → tp ≠ 0 →
        r.upside = some ((tp - c) / c * 100))
    ∧ (r.currentPrice = none ∨ r.targetPrice = none → r.upside = none)
    ∧ (r.currentPrice = some 0 ∨ r.targetPrice = some 0 → r.upside = none) := by
  have hu := (fetchTickerRating_success p t r h).2
  refine ⟨?_, ?_, (upside_guard_aux p t r h).1⟩
  · intro c tp hc htp hc0 htp0
    rw [hc, htp] at hu
    dsimp only at hu
    rw [if_pos ⟨hc0, htp0⟩] at hu
    exact hu
  · rintro (h0 | h0) <;> rw [h0] at hu
    · exact hu
    · rcases hcp : r.currentPrice with _ | c <;> rw [hcp] at hu <;> exact hu

/-- A well-behaved provider response: current price 100, target 150. -/
def goodQuote : QuoteResult :=
  ⟨some ⟨some "Good Co", some 100⟩, some ⟨some 150, some "buy", some 12⟩⟩

/-- The record `fetchTickerRating` builds from `goodQuote`. -/
def goodRecord : AnalystRating :=
  ⟨"GOOD", "Good Co", some 100, some 150, "Buy", 12, .buy,
    some (((150 : ℚ) - 100) / 100 * 100)⟩

theorem goodRecord_fetch :
    fetchTickerRating (fun _ => ProviderResponse.success goodQuote) "GOOD"
      = some goodRecord := rfl

/-- A provider response with no price data at all. -/
def bareQuote : QuoteResult := ⟨none, none⟩

/-- The record `fetchTickerRating` builds from `bareQuote`. -/
def bareRecord : AnalystRating :=
  ⟨"BARE", "BARE", none, none, "Unknown", 0, .unknown, none⟩

theorem bareRecord_fetch :
    fetchTickerRating (fun _ => ProviderResponse.success bareQuote) "BARE"
      = some bareRecord := rfl

/-- Witness for the amended C2: with prices 100 and 150 the upside is the
formula value, and with both prices missing it is absent. -/
theorem upside_formula_witness :
    goodRecord.upside = some (((150 : ℚ) - 100) / 100 * 100)
    ∧ bareRecord.upside = none :=
  ⟨(upside_formula (fun _ => ProviderResponse.success goodQuote) "GOOD"
      goodRecord goodRecord_fetch).1 100 150 rfl rfl (by norm_num) (by norm_num),
   (upside_formula (fun _ => ProviderResponse.success bareQuote) "BARE"
      bareRecord bareRecord_fetch).2.1 (Or.inl rfl)⟩

/-- Witness for C10: the zero target price yields an absent upside, and the
present upside of `goodRecord` certifies nonzero prices behind the
division. -/
theorem upside_zero_guard_witness :
    zeroTargetRecord.upside = none
    ∧ ∃ c tp, goodRecord.currentPrice = some c ∧ goodRecord.targetPrice = some tp
        ∧ c ≠ 0 ∧ tp ≠ 0 ∧ ((150 : ℚ) - 100) / 100 * 100 = (tp - c) / c * 100 :=
  ⟨(upside_zero_guard (fun _ => ProviderResponse.success zeroTargetQuote) "ZT"
      zeroTargetRecord zeroTargetRecord_fetch).1 (Or.inr rfl),
   (upside_zero_guard (fun _ => ProviderResponse.success goodQuote) "GOOD"
      goodRecord goodRecord_fetch).2 (((150 : ℚ) - 100) / 100 * 100) rfl⟩

/-! ### C6 / C8: batching and failure absorption -/

/-- The failing provider outcomes: non-OK response, thrown exception,
missing `quoteSummary.result[0]`. -/
def providerFails : ProviderResponse → Bool
  | .success _ => false
  | _ => true

theorem chunks5_flatten : ∀ ts : List String, (chunks5 ts).flatten = ts
  | [] => rfl
  | [_] => rfl
  | [_, _] => rfl
  | [_, _, _] => rfl
  | [_, _, _, _] => rfl
  | a :: b :: c :: d :: e :: rest => by
    simp [chunks5, chunks5_flatten rest]

theorem chunks5_shape : ∀ ts : List String, ∀ b ∈ chunks5 ts, b ≠ [] ∧ b.length ≤ 5
  | [] => by simp [chunks5]
  | [_] => by simp [chunks5]
  | [_, _] => by simp [chunks5]
  | [_, _, _] => by simp [chunks5]
  | [_, _, _, _] => by simp [chunks5]
  | a :: b :: c :: d :: e :: rest => by
    intro bb hbb
    rcases List.mem_cons.mp hbb with rfl | hbb
    · simp
    · exact chunks5_shape rest bb hbb

theorem chunks5_cons : ∀ ts : List String, ts ≠ [] →
    chunks5 ts = ts.take 5 :: chunks5 (ts.drop 5)
  | [], h => absurd rfl h
  | [_], _ => rfl
  | [_, _], _ => rfl
  | [_, _, _], _ => rfl
  | [_, _, _, _], _ => rfl
  | _ :: _ :: _ :: _ :: _ :: _, _ => rfl

/-- The batch boundaries are exactly the slices
`tickers.slice(5 * i, 5 * i + 5)` of the input, in order. -/
theorem chunks5_get? (i : Nat) : ∀ ts : List String,
    (chunks5 ts).get? i
      = if 5 * i < ts.length then some ((ts.drop (5 * i)).take 5) else none := by
  induction i with
  | zero =>
    intro ts
    cases ts with
    | nil => simp [chunks5]
    | cons a ts =>
      rw [chunks5_cons (a :: ts) (by simp)]
      simp
  | succ i ih =>
    intro ts
    cases ts with
    | nil => simp [chunks5]
    | cons a ts =>
      rw [chunks5_cons (a :: ts) (by simp)]
      have harith : 5 + 5 * i = 5 * (i + 1) := by ring
      rw [List.get?_cons_succ, ih ((a :: ts).drop 5), List.drop_drop, harith]
      exact if_congr (by simp only [List.length_drop]; omega) rfl rfl

theorem foldl_batches (p : String → ProviderResponse) :
    ∀ (chks : List (List String)) (acc : List AnalystRating),
      chks.foldl (fun acc batch => acc ++ (batch.map (fetchTickerRating p)).filterMap id) acc
        = acc ++ (chks.map (fun b => (b.map (fetchTickerRating p)).filterMap id)).flatten
  | [], acc => by simp
  | b :: chks, acc => by
    rw [List.foldl_cons, foldl_batches p chks, List.map_cons, List.flatten_cons,
      List.append_assoc]

theorem flatten_map_filterMap (p : String → ProviderResponse) :
    ∀ chks : List (List String),
      (chks.map (fun b => (b.map (fetchTickerRating p)).filterMap id)).flatten
        = (chks.flatten.map (fetchTickerRating p)).filterMap id
  | [] => by simp
  | b :: chks => by
    rw [List.map_cons, List.flatten_cons, flatten_map_filterMap p chks, List.flatten_cons,
      List.map_append, List.filterMap_append]

/-- `fetchMultipleRatings` is the per-ticker filter-map of
`fetchTickerRating` over the whole input, in input order. -/
theorem fetchMultipleRatings_eq_filterMap (p : String → ProviderResponse)
    (ts : List String) :
    fetchMultipleRatings p ts = ts.filterMap (fetchTickerRating p) := by
  unfold fetchMultipleRatings
  rw [foldl_batches, flatten_map_filterMap, chunks5_flatten, List.nil_append,
    List.filterMap_map]
  rfl

/-- **C6.** A provider failure for one ticker is absorbed per ticker:
`fetchTickerRating` converts every failing outcome (non-OK response, thrown
exception, missing data) into `none` — it is total, so nothing ever throws
into the batch loop — and `fetchMultipleRatings` merely drops that ticker
(its output is the filter-map of per-ticker results), while every ticker
whose fetch succeeds, in any batch, still yields its record; no record in
the output carries a failing ticker's symbol. -/
theorem provider_failure_absorbed (p : String → ProviderResponse) (ts : List String) :
    (∀ t, providerFails (p t) = true → fetchTickerRating p t = none)
    ∧ fetchMultipleRatings p ts = ts.filterMap (fetchTickerRating p)
    ∧ (∀ t ∈ ts, ∀ r, fetchTickerRating p t = some r → r ∈ fetchMultipleRatings p ts)
    ∧ (∀ t, providerFails (p t) = true →
        ∀ r ∈ fetchMultipleRatings p ts, r.ticker ≠ t) := by
  have hfm := fetchMultipleRatings_eq_filterMap p ts
  have habsorb : ∀ t, providerFails (p t) = true → fetchTickerRating p t = none := by
    intro t hf
    unfold fetchTickerRating
    cases hp : p t
    case success q => rw [hp] at hf; exact absurd hf (by simp [providerFails])
    all_goals rfl
  refine ⟨habsorb, hfm, ?_, ?_⟩
  · intro t ht r hr
    rw [hfm]
    exact List.mem_filterMap.mpr ⟨t, ht, hr⟩
  · intro t hf r hr heq
    rw [hfm] at hr
    obtain ⟨u, hu, hfu⟩ := List.mem_filterMap.mp hr
    have hticker := (fetchTickerRating_success p u r hfu).1
    rw [hticker] at heq
    subst heq
    rw [habsorb u hf] at hfu
    exact Option.noConfusion hfu

/-- **C8.** `fetchMultipleRatings` processes exactly the input tickers, in
order: the batches concatenate back to the input list, every batch is a
non-empty group of at most 5, batch `i` is exactly the slice
`tickers.slice(5 * i, 5 * i + 5)`, and the result is the concatenation, in
batch order, of each batch's successful records. -/
theorem fetchMultipleRatings_batches (p : String → ProviderResponse) (ts : List String) :
    (chunks5 ts).flatten = ts
    ∧ (∀ b ∈ chunks5 ts, b ≠ [] ∧ b.length ≤ 5)
    ∧ (∀ i : Nat, (chunks5 ts).get? i
        = if 5 * i < ts.length then some ((ts.drop (5 * i)).take 5) else none)
    ∧ fetchMultipleRatings p ts
        = ((chunks5 ts).map (fun b => (b.map (fetchTickerRating p)).filterMap id)).flatten := by
  refine ⟨chunks5_flatten ts, chunks5_shape ts, fun i => chunks5_get? i ts, ?_⟩
  unfold fetchMultipleRatings
  rw [foldl_batches, List.nil_append]

/-- A provider that fails (throws) on the ticker `"BAD"` and answers
`goodQuote` otherwise. -/
def mixedProvider : String → ProviderResponse :=
  fun t => if t = "BAD" then ProviderResponse.thrown else ProviderResponse.success goodQuote

/-- The record `fetchTickerRating` builds from `goodQuote` for ticker `t`. -/
def goodRecordFor (t : String) : AnalystRating :=
  ⟨t, "Good Co", some 100, some 150, "Buy", 12, .buy, some (((150 : ℚ) - 100) / 100 * 100)⟩

theorem goodRecordFor_fetch : fetchTickerRating mixedProvider "OK1" = some (goodRecordFor "OK1") :=
  rfl

/-- Witness for C6: in the batch `["OK1", "BAD", "OK2"]` the failing ticker
is absorbed (its fetch is `none` and nothing in the output carries it),
while `"OK1"`'s record still appears. -/
theorem provider_failure_absorbed_witness :
    fetchTickerRating mixedProvider "BAD" = none
    ∧ goodRecordFor "OK1" ∈ fetchMultipleRatings mixedProvider ["OK1", "BAD", "OK2"]
    ∧ ∀ r ∈ fetchMultipleRatings mixedProvider ["OK1", "BAD", "OK2"], r.ticker ≠ "BAD" :=
  ⟨(provider_failure_absorbed mixedProvider ["OK1", "BAD", "OK2"]).1 "BAD" rfl,
   (provider_failure_absorbed mixedProvider ["OK1", "BAD", "OK2"]).2.2.1 "OK1"
     (by decide) (goodRecordFor "OK1") goodRecordFor_fetch,
   fun r hr => (provider_failure_absorbed mixedProvider ["OK1", "BAD", "OK2"]).2.2.2 "BAD"
     rfl r hr⟩

/-- Witness for C8 on a 7-ticker input: the two batches are the slices
`[0,5)` and `[5,7)` and they concatenate back to the input. -/
theorem fetchMultipleRatings_batches_witness :
    (chunks5 ["T1", "T2", "T3", "T4", "T5", "T6", "T7"]).flatten
        = ["T1", "T2", "T3", "T4", "T5", "T6", "T7"]
    ∧ (["T6", "T7"] ≠ [] ∧ (["T6", "T7"] : List String).length ≤ 5)
    ∧ (chunks5 ["T1", "T2", "T3", "T4", "T5", "T6", "T7"]).get? 1 = some ["T6", "T7"] := by
  have h := fetchMultipleRatings_batches mixedProvider ["T1", "T2", "T3", "T4", "T5", "T6", "T7"]
  refine ⟨h.1, h.2.1 ["T6", "T7"] (by decide), ?_⟩
  rw [h.2.2.1 1]
  decide

/-! ### C4: `getTopPicks` sorts stably, truncates, defaults to 5 -/

/-- The scored pairs `ratings.map(rating => ({rating, score}))`. -/
def scoredList (ratings : List AnalystRating) : List (AnalystRating × ℚ) :=
  ratings.map (fun r => (r, scoreOf r))

/-- The full descending ranking of the input (the sorted array before
`slice`), projected back to records. -/
def rankAll (ratings : List AnalystRating) : List AnalystRating :=
  (List.insertionSort scoreRel (scoredList ratings)).map Prod.fst

/-- Inserting a pair into a list never disturbs, for any score value `q`,
the subsequence of pairs with that score — the heart of stability. -/
theorem filter_orderedInsert (q : ℚ) (a : AnalystRating × ℚ) :
    ∀ l : List (AnalystRating × ℚ),
      (List.orderedInsert scoreRel a l).filter (fun x => decide (x.2 = q))
        = if a.2 = q then a :: l.filter (fun x => decide (x.2 = q))
          else l.filter (fun x => decide (x.2 = q))
  | [] => by
    by_cases ha : a.2 = q <;> simp [List.orderedInsert, List.filter, ha]
  | b :: l => by
    by_cases hab : scoreRel a b
    · rw [List.orderedInsert_of_le scoreRel l hab]
      by_cases ha : a.2 = q <;> by_cases hb : b.2 = q <;>
        simp [List.filter_cons, ha, hb]
    · have hlt : a.2 < b.2 := lt_of_not_le hab
      simp only [List.orderedInsert, if_neg hab]
      by_cases ha : a.2 = q
      · have hb : ¬ b.2 = q := by
          intro hbq
          rw [ha] at hlt
          rw [hbq] at hlt
          exact lt_irrefl q hlt
        simp [List.filter_cons, hb, filter_orderedInsert q a l, ha]
      · by_cases hb : b.2 = q <;>
          simp [List.filter_cons, hb, filter_orderedInsert q a l, ha]

/-- The insertion sort of `getTopPicks` is stable: for every score value the
subsequence of pairs carrying that score is exactly the one of the input. -/
theorem filter_insertionSort (q : ℚ) :
    ∀ l : List (AnalystRating × ℚ),
      (List.insertionSort scoreRel l).filter (fun x => decide (x.2 = q))
        = l.filter (fun x => decide (x.2 = q))
  | [] => rfl
  | a :: l => by
    rw [List.insertionSort, filter_orderedInsert q a (List.insertionSort scoreRel l),
      filter_insertionSort q l]
    by_cases ha : a.2 = q <;> simp [List.filter_cons, ha]

theorem scoredList_snd {ratings : List AnalystRating} :
    ∀ x ∈ List.insertionSort scoreRel (scoredList ratings), x.2 = scoreOf x.1 := by
  intro x hx
  have hx' := (List.mem_insertionSort scoreRel).mp hx
  obtain ⟨r, _, rfl⟩ := List.mem_map.mp hx'
  rfl

/-- **C4.** `getTopPicks records count` returns the first `count` records of
the input sorted by descending score and nothing else: its length is
`min count records.length` (so all records are returned, still sorted, when
fewer than `count` are available), it is a prefix of the full ranking
`rankAll`, which is a permutation of the input, is sorted by descending
score, and is stable — for every score value the records carrying that score
appear in their input order; the `count` argument defaults to 5. -/
theorem getTopPicks_spec (ratings : List AnalystRating) (count : Nat) :
    (getTopPicks ratings count).length = min count ratings.length
    ∧ getTopPicks ratings count = (rankAll ratings).take count
    ∧ (rankAll ratings).Perm ratings
    ∧ List.Sorted (fun a b => scoreOf b ≤ scoreOf a) (rankAll ratings)
    ∧ List.Sorted (fun a b => scoreOf b ≤ scoreOf a) (getTopPicks ratings count)
    ∧ (∀ q : ℚ, (rankAll ratings).filter (fun x => decide (scoreOf x = q))
        = ratings.filter (fun x => decide (scoreOf x = q)))
    ∧ (ratings.length ≤ count → (getTopPicks ratings count).Perm ratings)
    ∧ getTopPicks ratings = getTopPicks ratings 5 := by
  have hsorted := List.sorted_insertionSort scoreRel (scoredList ratings)
  have hperm : (List.insertionSort scoreRel (scoredList ratings)).Perm (scoredList ratings) :=
    List.perm_insertionSort scoreRel (scoredList ratings)
  have hmapfst : (scoredList ratings).map Prod.fst = ratings := by
    rw [scoredList, List.map_map]
    exact List.map_id' _
  have hpermAll : (rankAll ratings).Perm ratings := by
    have h1 := hperm.map Prod.fst
    rw [hmapfst] at h1
    exact h1
  have htake : getTopPicks ratings count = (rankAll ratings).take count := by
    rw [getTopPicks, rankAll, List.map_take]
    rfl
  have hlen : (getTopPicks ratings count).length = min count ratings.length := by
    rw [htake, List.length_take, hpermAll.length_eq]
  have hsortedAll : List.Sorted (fun a b => scoreOf b ≤ scoreOf a) (rankAll ratings) := by
    rw [rankAll, List.Sorted, List.pairwise_map]
    refine hsorted.imp_of_mem ?_
    intro a b ha hb hab
    rw [← scoredList_snd a ha, ← scoredList_snd b hb]
    exact hab
  refine ⟨hlen, htake, hpermAll, hsortedAll, ?_, ?_, ?_, rfl⟩
  · rw [htake]
    exact List.Pairwise.sublist (List.take_sublist count (rankAll ratings)) hsortedAll
  · intro q
    have step1 : (rankAll ratings).filter (fun x => decide (scoreOf x = q))
        = ((List.insertionSort scoreRel (scoredList ratings)).filter
            (fun x => decide (x.2 = q))).map Prod.fst := by
      rw [rankAll, List.filter_map]
      exact congrArg (List.map Prod.fst)
        (List.filter_congr (fun x hx => by
          show decide (scoreOf x.1 = q) = decide (x.2 = q)
          rw [scoredList_snd x hx]))
    have step2 : ((scoredList ratings).filter (fun x => decide (x.2 = q))).map Prod.fst
        = ratings.filter (fun x => decide (scoreOf x = q)) := by
      rw [scoredList, List.filter_map, List.map_map]
      exact List.map_id' _
    rw [step1, filter_insertionSort q (scoredList ratings)]
    exact step2
  · intro hle
    rw [htake, List.take_of_length_le (by rw [hpermAll.length_eq]; exact hle)]
    exact hpermAll

/-- Two records with equal scores (4 analysts, hold, no upside) and one
stronger record, for the C4 witness. -/
def tieRecordA : AnalystRating := ⟨"TIEA", "TIEA", none, none, "Hold", 4, .hold, none⟩

def tieRecordB : AnalystRating := ⟨"TIEB", "TIEB", none, none, "Hold", 4, .hold, none⟩

/-- Witness for C4 at a concrete two-record input: the result keeps both
records (the input is shorter than the default count) and is a permutation
of the input of length 2. -/
theorem getTopPicks_spec_witness :
    (getTopPicks [tieRecordA, tieRecordB] 5).Perm [tieRecordA, tieRecordB]
    ∧ (getTopPicks [tieRecordA, tieRecordB] 5).length = min 5 2
    ∧ getTopPicks [tieRecordA, tieRecordB] = getTopPicks [tieRecordA, tieRecordB] 5 :=
  ⟨(getTopPicks_spec [tieRecordA, tieRecordB] 5).2.2.2.2.2.2.1 (by decide),
   (getTopPicks_spec [tieRecordA, tieRecordB] 5).1,
   (getTopPicks_spec [tieRecordA, tieRecordB] 5).2.2.2.2.2.2.2⟩

/-! ### Declarative semantics of the regex `\b([A-Z]{1,5})\b`

`OccursFrom startOK run text` says that `run` occurs in `text` as a match of
the regex: a non-empty all-uppercase run of length at most 5 whose two ends
sit on word boundaries.  `startOK` generalises the left end for the
induction: when the run sits at the very start of `text`, the boundary holds
iff `startOK` (at the top level `startOK = true`). -/

theorem upper_word {c : Char} (h : isUpperCh c = true) : isWordCh c = true := by
  simp [isWordCh, h]

/-- The leading `\b` before the run, after the prefix `pre`. -/
def leftBFrom (startOK : Bool) (pre : List Char) : Bool :=
  (pre.getLast?.map (fun ch => !isWordCh ch)).getD startOK

/-- The trailing `\b` after the run, before the suffix `post`. -/
def rightBAt (post : List Char) : Bool :=
  (post.head?.map (fun d => !isWordCh d)).getD true

/-- `run` matches the ticker regex somewhere in `text` (with the left end of
the text treated as a boundary iff `startOK`). -/
def OccursFrom (startOK : Bool) (run text : List Char) : Prop :=
  run ≠ [] ∧ run.all isUpperCh = true ∧ run.length ≤ 5 ∧
  ∃ pre post, text = pre ++ run ++ post
    ∧ leftBFrom startOK pre = true ∧ rightBAt post = true

/-- `run` occurs in `text` as a maximal uppercase run of length 1–5 bounded
by word boundaries on both sides — the matches of `/\b([A-Z]{1,5})\b/g`. -/
def OccursAsBoundedRun (run text : List Char) : Prop := OccursFrom true run text

theorem mem_of_getLast?_eq : ∀ {l : List Char} {a : Char}, l.getLast? = some a → a ∈ l := by
  intro l
  induction l with
  | nil => intro a h; cases h
  | cons x l ih =>
    intro a h
    cases l with
    | nil =>
      simp only [List.getLast?_singleton] at h
      cases h
      exact List.mem_cons_self _ _
    | cons y l =>
      rw [List.getLast?_cons_cons] at h
      exact List.mem_cons_of_mem x (ih h)

theorem mem_finishRun_iff {startOK : Bool} {runAcc : List Char} {rightOK : Bool}
    {run : List Char} :
    run ∈ finishRun startOK runAcc rightOK ↔
      run = runAcc ∧ startOK = true ∧ runAcc ≠ [] ∧ runAcc.length ≤ 5 ∧ rightOK = true := by
  unfold finishRun
  by_cases h : (startOK && !runAcc.isEmpty && decide (runAcc.length ≤ 5) && rightOK) = true
  · rw [if_pos h]
    simp only [Bool.and_eq_true, Bool.not_eq_true', decide_eq_true_eq] at h
    obtain ⟨⟨⟨h1, h2⟩, h3⟩, h4⟩ := h
    have h2' : runAcc ≠ [] := by
      intro hnil
      rw [hnil] at h2
      exact Bool.noConfusion h2
    simp only [List.mem_singleton]
    exact ⟨fun he => ⟨he, h1, h2', h3, h4⟩, fun hh => hh.1⟩
  · rw [if_neg h]
    simp only [List.not_mem_nil, false_iff]
    rintro ⟨rfl, h1, h2, h3, h4⟩
    apply h
    simp only [Bool.and_eq_true, Bool.not_eq_true', decide_eq_true_eq]
    exact ⟨⟨⟨h1, by simpa using h2⟩, h3⟩, h4⟩

/-- At the end of the text the pending run is the whole remaining text, and
it matches iff the scanner emits it. -/
theorem scanAux_nil_iff {startOK : Bool} {runAcc : List Char}
    (hAcc : runAcc.all isUpperCh = true) {run : List Char} :
    run ∈ scanAux startOK runAcc [] ↔ OccursFrom startOK run runAcc := by
  show run ∈ finishRun startOK runAcc true ↔ _
  rw [mem_finishRun_iff]
  constructor
  · rintro ⟨rfl, h1, h2, h3, -⟩
    exact ⟨h2, hAcc, h3, [], [], by simp, by simpa [leftBFrom] using h1,
      by simp [rightBAt]⟩
  · rintro ⟨hne, hup, hlen, pre, post, heq, hleft, hright⟩
    have hpost : post = [] := by
      cases post with
      | nil => rfl
      | cons d post =>
        exfalso
        have hd : d ∈ runAcc := by
          rw [heq]
          exact List.mem_append.mpr (Or.inr (List.mem_cons_self _ _))
        have hw := upper_word (List.all_eq_true.mp hAcc d hd)
        rw [rightBAt] at hright
        simp [hw] at hright
    subst hpost
    have hpre : pre = [] := by
      cases hp : pre.getLast? with
      | none =>
        cases pre with
        | nil => rfl
        | cons x pre => simp at hp
      | some y =>
        exfalso
        have hy : y ∈ runAcc := by
          rw [heq]
          exact List.mem_append.mpr (Or.inl (List.mem_append.mpr
            (Or.inl (mem_of_getLast?_eq hp))))
        have hw := upper_word (List.all_eq_true.mp hAcc y hy)
        rw [leftBFrom, hp] at hleft
        simp [hw] at hleft
    subst hpre
    simp only [List.nil_append, List.append_nil] at heq
    rw [leftBFrom] at hleft
    simp only [List.getLast?_nil, Option.map_none', Option.getD_none] at hleft
    exact ⟨heq.symm, hleft, by rw [heq]; exact hne, by rw [heq]; exact hlen, rfl⟩

theorem head_upper_of_occurs {run rest : List Char} {c : Char}
    (hne : run ≠ []) (hup : run.all isUpperCh = true)
    (h : run ++ rest = c :: cs) : isUpperCh c = true := by
  cases run with
  | nil => exact absurd rfl hne
  | cons r run =>
    rw [List.cons_append] at h
    cases h
    exact List.all_eq_true.mp hup c (List.mem_cons_self _ _)

/-- Splitting a match of the regex around the first non-uppercase character:
in `runAcc ++ c :: cs` (with `runAcc` all uppercase and `c` not uppercase) a
match is either the pending run `runAcc` itself, closed off by `c`, or a
match inside the remaining text `cs`. -/
theorem occursFrom_split {c : Char} (hc : isUpperCh c = false) (cs : List Char)
    (startOK : Bool) {runAcc : List Char} (hAcc : runAcc.all isUpperCh = true)
    (run : List Char) :
    OccursFrom startOK run (runAcc ++ c :: cs) ↔
      run ∈ finishRun startOK runAcc (!isWordCh c) ∨ OccursFrom (!isWordCh c) run cs := by
  constructor
  · rintro ⟨hne, hup, hlen, pre, post, heq, hleft, hright⟩
    rw [List.append_assoc] at heq
    rcases List.append_eq_append_iff.mp heq with ⟨w, hw1, hw2⟩ | ⟨w, hw1, hw2⟩
    · -- the match lies beyond the pending run: pre = runAcc ++ w
      cases w with
      | nil =>
        exfalso
        rw [List.nil_append] at hw2
        exact absurd (head_upper_of_occurs hne hup hw2.symm) (by simp [hc])
      | cons w0 w' =>
        rw [List.cons_append] at hw2
        injection hw2 with h1a h1b
        subst h1a
        right
        refine ⟨hne, hup, hlen, w', post,
          by rw [h1b]; exact (List.append_assoc w' run post).symm, ?_, hright⟩
        cases hp : w'.getLast? with
        | none =>
          have hw' : w' = [] := by
            cases w' with
            | nil => rfl
            | cons x w' => simp at hp
          subst hw'
          rw [leftBFrom, hp]
          simp only [Option.map_none', Option.getD_none]
          rw [hw1] at hleft
          rw [leftBFrom, List.getLast?_concat] at hleft
          simpa using hleft
        | some y =>
          rw [leftBFrom, hp]
          have hw'ne : w' ≠ [] := by
            intro hnil
            rw [hnil] at hp
            simp at hp
          rw [hw1] at hleft
          rw [leftBFrom, List.getLast?_append_of_ne_nil runAcc (by simp : c :: w' ≠ [])] at hleft
          have hcw : (c :: w').getLast? = w'.getLast? := by
            cases w' with
            | nil => exact absurd rfl hw'ne
            | cons x w' => exact List.getLast?_cons_cons
          rw [hcw, hp] at hleft
          exact hleft
    · -- the match starts inside or at the pending run: runAcc = pre ++ w
      have hpre : pre = [] := by
        cases hp : pre.getLast? with
        | none =>
          cases pre with
          | nil => rfl
          | cons x pre => simp at hp
        | some y =>
          exfalso
          have hy : y ∈ runAcc := by
            rw [hw1]
            exact List.mem_append.mpr (Or.inl (mem_of_getLast?_eq hp))
          have hw := upper_word (List.all_eq_true.mp hAcc y hy)
          rw [leftBFrom, hp] at hleft
          simp [hw] at hleft
      subst hpre
      rw [List.nil_append] at hw1
      subst hw1
      rcases List.append_eq_append_iff.mp hw2 with ⟨v, hv1, hv2⟩ | ⟨v, hv1, hv2⟩
      · cases v with
        | nil =>
          rw [List.append_nil] at hv1
          rw [List.nil_append] at hv2
          left
          rw [mem_finishRun_iff]
          refine ⟨hv1.symm, ?_, ?_, ?_, ?_⟩
          · rw [leftBFrom] at hleft
            simpa using hleft
          · rw [hv1]; exact hne
          · rw [hv1]; exact hlen
          · rw [hv2, rightBAt] at hright
            simpa using hright
        | cons d v' =>
          exfalso
          have hd : d ∈ runAcc := by
            rw [hv1]
            exact List.mem_append.mpr (Or.inr (List.mem_cons_self _ _))
          have hw := upper_word (List.all_eq_true.mp hAcc d hd)
          rw [hv2, rightBAt] at hright
          simp [hw] at hright
      · cases v with
        | nil =>
          rw [List.append_nil] at hv1
          rw [List.nil_append] at hv2
          left
          rw [mem_finishRun_iff]
          refine ⟨hv1, ?_, ?_, ?_, ?_⟩
          · rw [leftBFrom] at hleft
            simpa using hleft
          · rw [hv1] at hne; exact hne
          · rw [hv1] at hlen; exact hlen
          · rw [← hv2, rightBAt] at hright
            simpa using hright
        | cons v0 v' =>
          exfalso
          rw [List.cons_append] at hv2
          injection hv2 with h1a h1b
          subst h1a
          have hcrun : c ∈ run := by
            rw [hv1]
            exact List.mem_append.mpr (Or.inr (List.mem_cons_self _ _))
          exact absurd (List.all_eq_true.mp hup c hcrun) (by simp [hc])
  · rintro (hfin | ⟨hne, hup, hlen, pre, post, heq, hleft, hright⟩)
    · rw [mem_finishRun_iff] at hfin
      obtain ⟨rfl, hstart, hne', hlen', hr⟩ := hfin
      refine ⟨hne', hAcc, hlen', [], c :: cs, by simp, ?_, ?_⟩
      · rw [leftBFrom]
        simpa using hstart
      · rw [rightBAt]
        simpa using hr
    · refine ⟨hne, hup, hlen, runAcc ++ c :: pre, post, ?_, ?_, hright⟩
      · rw [heq]
        simp [List.append_assoc]
      · cases hp : pre.getLast? with
        | none =>
          have hpre : pre = [] := by
            cases pre with
            | nil => rfl
            | cons x pre => simp at hp
          subst hpre
          rw [leftBFrom, List.getLast?_concat]
          rw [leftBFrom, hp] at hleft
          simpa using hleft
        | some y =>
          have hpne : pre ≠ [] := by
            intro hnil
            rw [hnil] at hp
            simp at hp
          rw [leftBFrom, List.getLast?_append_of_ne_nil runAcc (by simp : c :: pre ≠ [])]
          have hcw : (c :: pre).getLast? = pre.getLast? := by
            cases pre with
            | nil => exact absurd rfl hpne
            | cons x pre => exact List.getLast?_cons_cons
          rw [hcw, hp]
          rw [leftBFrom, hp] at hleft
          exact hleft

/-- Correctness of the scanner: `scanAux startOK runAcc l` emits exactly the
regex matches of the text `runAcc ++ l`. -/
theorem scanAux_correct : ∀ (l : List Char) (startOK : Bool) (runAcc : List Char),
    runAcc.all isUpperCh = true → ∀ run : List Char,
    (run ∈ scanAux startOK runAcc l ↔ OccursFrom startOK run (runAcc ++ l)) := by
  intro l
  induction l with
  | nil =>
    intro startOK runAcc hAcc run
    rw [List.append_nil]
    exact scanAux_nil_iff hAcc
  | cons c cs ih =>
    intro startOK runAcc hAcc run
    by_cases hc : isUpperCh c = true
    · show run ∈ (if isUpperCh c then scanAux startOK (runAcc ++ [c]) cs
          else finishRun startOK runAcc (!isWordCh c) ++ scanAux (!isWordCh c) [] cs) ↔ _
      rw [if_pos hc, ih startOK (runAcc ++ [c]) (by simp [List.all_append, hAcc, hc]) run,
        List.append_cons runAcc c cs]
    · have hc' : isUpperCh c = false := Bool.of_not_eq_true hc
      show run ∈ (if isUpperCh c then scanAux startOK (runAcc ++ [c]) cs
          else finishRun startOK runAcc (!isWordCh c) ++ scanAux (!isWordCh c) [] cs) ↔ _
      rw [if_neg hc, List.mem_append, ih (!isWordCh c) [] rfl run, List.nil_append]
      exact (occursFrom_split hc' cs startOK hAcc run).symm

/-- The matches of the global regex are exactly the word-boundary-delimited
uppercase runs of length 1–5. -/
theorem tickerScan_correct (text : List Char) (run : List Char) :
    run ∈ tickerScan text ↔ OccursAsBoundedRun run text := by
  have h := scanAux_correct text true [] rfl run
  rw [List.nil_append] at h
  exact h

/-! ### Membership in `extractTickers` -/

theorem mem_extractTickers (text s : String) :
    s ∈ extractTickers text ↔ s.data ∈ tickerScan text.data ∧ acceptTicker s = true := by
  rw [extractTickers, List.mem_insertionSort (· ≤ ·), List.mem_dedup, List.mem_filter,
    List.mem_map]
  constructor
  · rintro ⟨⟨a, ha, rfl⟩, hacc⟩
    exact ⟨ha, hacc⟩
  · rintro ⟨ha, hacc⟩
    exact ⟨⟨s.data, ha, rfl⟩, hacc⟩

theorem tickerShape_mk {run : List Char} (hne : run ≠ []) (hup : run.all isUpperCh = true)
    (hlen : run.length ≤ 5) : tickerShape (String.mk run) = true := by
  rw [tickerShape]
  simp only [String.length, Bool.and_eq_true, decide_eq_true_eq]
  exact ⟨⟨List.length_pos.mpr hne, hlen⟩, hup⟩

/-- On strings of the regex shape, the filtering loop of `extractTickers`
and `isValidTicker` agree. -/
theorem acceptTicker_eq_isValidTicker {s : String} (hshape : tickerShape s = true) :
    acceptTicker s = isValidTicker s := by
  have h5 : s.length ≤ 5 := by
    rw [tickerShape] at hshape
    simp only [Bool.and_eq_true, decide_eq_true_eq] at hshape
    exact hshape.1.2
  by_cases hk : s ∈ KNOWN_TICKERS
  · simp [acceptTicker, isValidTicker, hshape, hk]
  · by_cases he : s ∈ EXCLUDED_WORDS
    · by_cases hlen : s.length < 2 <;>
        simp [acceptTicker, isValidTicker, hshape, hk, he, hlen]
    · by_cases hlen : s.length < 2
      · have h2 : ¬ (2 ≤ s.length) := by omega
        simp [acceptTicker, isValidTicker, hshape, hk, he, hlen, h2]
      · have h2 : 2 ≤ s.length := by omega
        simp [acceptTicker, isValidTicker, hshape, hk, he, hlen, h2, h5]

/-- The full characterisation of `extractTickers`: its members are exactly
the word-boundary-delimited 1–5-letter uppercase runs of the text accepted
by `isValidTicker`. -/
theorem extract_characterisation (text s : String) :
    s ∈ extractTickers text ↔
      OccursAsBoundedRun s.data text.data ∧ isValidTicker s = true := by
  rw [mem_extractTickers, tickerScan_correct text.data s.data]
  constructor
  · rintro ⟨hocc, hacc⟩
    have hshape : tickerShape s = true :=
      tickerShape_mk hocc.1 hocc.2.1 hocc.2.2.1
    rw [acceptTicker_eq_isValidTicker hshape] at hacc
    exact ⟨hocc, hacc⟩
  · rintro ⟨hocc, hval⟩
    have hshape : tickerShape s = true :=
      tickerShape_mk hocc.1 hocc.2.1 hocc.2.2.1
    rw [← acceptTicker_eq_isValidTicker hshape] at hval
    exact ⟨hocc, hval⟩

/-! ### C1 / C5: the claims' literal reading and their resolution

`OccursAsMaxUpperRun` is the literal reading of "occurs as a maximal
uppercase-letter run": the neighbouring characters are simply not uppercase.
The regex is stricter — its `\b` requires the neighbours not to be *word*
characters (lowercase, digit, underscore), which is
`OccursAsBoundedRun`. -/

/-- The character before the run (if any) is not uppercase. -/
def notUpperEnd (pre : List Char) : Bool :=
  (pre.getLast?.map (fun ch => !isUpperCh ch)).getD true

/-- The character after the run (if any) is not uppercase. -/
def notUpperStart (post : List Char) : Bool :=
  (post.head?.map (fun d => !isUpperCh d)).getD true

/-- `run` occurs in `text` as a maximal run of uppercase letters of length
1–5 (nothing uppercase adjacent to it). -/
def OccursAsMaxUpperRun (run text : List Char) : Prop :=
  run ≠ [] ∧ run.all isUpperCh = true ∧ run.length ≤ 5 ∧
  ∃ pre post, text = pre ++ run ++ post
    ∧ notUpperEnd pre = true ∧ notUpperStart post = true

/-- **C5 counterexample.** In the text `"ABc"` the string `"AB"` is a
maximal 1–5-letter uppercase run and `isValidTicker "AB" = true`, yet
`extractTickers "ABc"` is empty: the lowercase `c` continues the same word,
so the regex's trailing `\b` fails and the run is never matched. -/
theorem extract_maxRun_cex :
    extractTickers "ABc" = []
    ∧ OccursAsMaxUpperRun "AB".data "ABc".data
    ∧ isValidTicker "AB" = true :=
  ⟨by decide,
   ⟨by decide, by decide, by decide, [], ['c'], by decide, by decide, by decide⟩,
   by decide⟩

/-- **C5 (amended).** `extractTickers` and `isValidTicker` agree on every
input: for any text, the members of `extractTickers text` are exactly the
maximal 1–5-letter uppercase runs *bounded by word boundaries* (not adjacent
to any lowercase letter, digit or underscore either) occurring in the text
for which `isValidTicker` returns `true`. -/
theorem extract_agrees_isValidTicker (text s : String) :
    s ∈ extractTickers text ↔
      OccursAsBoundedRun s.data text.data ∧ isValidTicker s = true :=
  extract_characterisation text s

/-- **C1 counterexample.** `"V"` is a member of the Known-Ticker Set and
occurs in the text `"V2"` as a maximal uppercase-letter run, yet
`extractTickers "V2"` is empty: the digit `2` continues the same word, so
the regex never matches the run and the known-ticker override is never
consulted. -/
theorem knownTicker_cex :
    "V" ∈ KNOWN_TICKERS
    ∧ OccursAsMaxUpperRun "V".data "V2".data
    ∧ "V" ∉ extractTickers "V2" :=
  ⟨by decide,
   ⟨by decide, by decide, by decide, [], ['2'], by decide, by decide, by decide⟩,
   by decide⟩

/-- **C1 (amended).** The Known-Ticker Set overrides both the Exclusion Set
and the minimum-length rule: every member of the set (including the
single-letter members `V` and `C` and the exclusion-set collisions `META`,
`COST`, `LOW`) satisfies `isValidTicker`, and every occurrence of a member
as a maximal uppercase-letter run *bounded by word boundaries* appears in
the output of `extractTickers`; in particular `isValidTicker "V" = true`. -/
theorem knownTicker_override :
    (∀ k ∈ KNOWN_TICKERS, isValidTicker k = true)
    ∧ (∀ k text, k ∈ KNOWN_TICKERS → OccursAsBoundedRun k.data text.data →
        k ∈ extractTickers text)
    ∧ isValidTicker "V" = true := by
  have hall : ∀ k ∈ KNOWN_TICKERS, isValidTicker k = true := by decide
  refine ⟨hall, ?_, by decide⟩
  intro k text hk hocc
  exact (extract_characterisation text k).mpr ⟨hocc, hall k hk⟩

/-- Witness for the amended C1: `"V"`, `"META"` and `"COST"` are valid, and
the occurrence of `V` in `"buy V today"` (boundaries: a space on each side)
is extracted. -/
theorem knownTicker_override_witness :
    isValidTicker "V" = true ∧ isValidTicker "META" = true
    ∧ isValidTicker "COST" = true ∧ isValidTicker "LOW" = true
    ∧ "V" ∈ extractTickers "buy V today" :=
  ⟨knownTicker_override.1 "V" (by decide),
   knownTicker_override.1 "META" (by decide),
   knownTicker_override.1 "COST" (by decide),
   knownTicker_override.1 "LOW" (by decide),
   knownTicker_override.2.1 "V" "buy V today" (by decide)
     ⟨by decide, by decide, by decide, "buy ".data, " today".data,
       by decide, by decide, by decide⟩⟩

/-! ### C7: totality, no duplicates, sortedness, empty cases -/

theorem scanAux_no_upper : ∀ (l : List Char), (∀ ch ∈ l, isUpperCh ch = false) →
    ∀ startOK : Bool, scanAux startOK [] l = []
  | [], _, startOK => by simp [scanAux, finishRun]
  | c :: cs, h, startOK => by
    have hc := h c (List.mem_cons_self _ _)
    show (if isUpperCh c then scanAux startOK [c] cs
        else finishRun startOK [] (!isWordCh c) ++ scanAux (!isWordCh c) [] cs) = []
    rw [if_neg (by simp [hc])]
    rw [scanAux_no_upper cs (fun ch hch => h ch (List.mem_cons_of_mem c hch)) (!isWordCh c)]
    simp [finishRun]

/-- **C7.** `extractTickers` is total (it is a function on all strings) and
its output never contains duplicates and is sorted ascending; it returns the
empty sequence on the empty string and on any string containing no uppercase
letter (hence no uppercase run). -/
theorem extractTickers_nodup_sorted (text : String) :
    (extractTickers text).Nodup
    ∧ List.Sorted (· ≤ ·) (extractTickers text)
    ∧ extractTickers "" = []
    ∧ (text.data.all (fun ch => !isUpperCh ch) = true → extractTickers text = []) := by
  refine ⟨?_, ?_, by decide, ?_⟩
  · exact (List.perm_insertionSort (· ≤ ·) _).symm.nodup (List.nodup_dedup _)
  · exact List.sorted_insertionSort (· ≤ ·) _
  · intro h
    have h' : ∀ ch ∈ text.data, isUpperCh ch = false := by
      intro ch hch
      have := List.all_eq_true.mp h ch hch
      simpa using this
    rw [extractTickers, tickerScan, scanAux_no_upper text.data h' true]
    rfl

/-- Witness for C7: evaluated on a lowercase-and-digits string. -/
theorem extractTickers_nodup_sorted_witness :
    extractTickers "no tickers here 123" = [] :=
  (extractTickers_nodup_sorted "no tickers here 123").2.2.2 (by decide)

end TickerGenie
